import Mathlib

/-!
Verification development for the vocabulary-extraction core of the
vocaaudio repository (`src/pdf_parser.py`).

The Python module is shallowly embedded below.  Text is modelled as
`List Char` (Python `str` is a sequence of unicode code points, exactly
Lean's `Char`).  Each regular-expression of the source is embedded as a
hand-written matcher that follows Python `re` semantics (leftmost match,
greedy / lazy quantifiers with backtracking, non-overlapping `findall` /
`sub` scans) for that concrete pattern.  Character classes `\s`, `\d`,
`\w` are embedded for the scripts that occur in this application's data
(ASCII plus Hangul syllables); `\b` is the Python word boundary over
that class.  Machine integers do not occur (Python ints are unbounded),
numbers are `Int`.  External collaborators (Tesseract OSD / OCR, PIL
images) are modelled as explicit oracles: an image is a term of an
inductive type recording the geometric operations applied to it, and an
engine is a record of possibly-failing functions (`Option`-valued, a
`none` result standing for a raised exception).
-/

/-! ### Character classes (Python `re` classes, `str.strip`, `str.split`) -/

/-- Python `\s` (and the class stripped by `str.strip()` / split by
`str.split()`): space, tab, newline, carriage return, vertical tab, form
feed. -/
def isPySpace (c : Char) : Bool :=
  c == ' ' || c == '\t' || c == '\n' || c == '\r' || c.val == 11 || c.val == 12

/-- Embeds `[a-zA-Z]`. -/
def isAsciiLetter (c : Char) : Bool :=
  ('a' ≤ c && c ≤ 'z') || ('A' ≤ c && c ≤ 'Z')

/-- Embeds `[가-힣]` — the Hangul syllable block, used by the source as the
native-script (Korean) detector. -/
def isHangul (c : Char) : Bool :=
  '가' ≤ c && c ≤ '힣'

/-- Embeds `[a-zA-Z\-]` — the characters allowed after the first letter of a
word token. -/
def isWordTail (c : Char) : Bool :=
  isAsciiLetter c || c == '-'

/-- Python `\w`, restricted to the scripts occurring in this
application's texts: ASCII alphanumerics, underscore and Hangul. -/
def isPyWord (c : Char) : Bool :=
  isAsciiLetter c || c.isDigit || c == '_' || isHangul c

/-- Embeds `[avn]` — the part-of-speech tag letters of the source's patterns. -/
def isTagLetter (c : Char) : Bool :=
  c == 'a' || c == 'v' || c == 'n'

/-- The checkbox-glyph class `[□☐\[\]O]` of `parse_vocab_simple`. -/
def isGlyphSimple (c : Char) : Bool :=
  c == '□' || c == '☐' || c == '[' || c == ']' || c == 'O'

/-- The checkbox-glyph class `[O□☐\[\]oO]` of `parse_ocr_vocab_text`. -/
def isGlyphOcr (c : Char) : Bool :=
  c == 'O' || c == '□' || c == '☐' || c == '[' || c == ']' || c == 'o'

/-- The checkbox-glyph class `[□☐\[\]]` of `parse_vocab_table`. -/
def isGlyphTable (c : Char) : Bool :=
  c == '□' || c == '☐' || c == '[' || c == ']'

/-! ### String / list primitives -/

/-- Python `str.strip()`. -/
def stripWS (s : List Char) : List Char :=
  ((s.dropWhile isPySpace).reverse.dropWhile isPySpace).reverse

/-- Python `text.split(sep)` for a one-character separator
(`"".split(c) == [""]`, separators at the ends produce empty parts). -/
def splitOnChar (sep : Char) : List Char → List (List Char)
  | [] => [[]]
  | c :: rest =>
    if c == sep then
      [] :: splitOnChar sep rest
    else
      match splitOnChar sep rest with
      | t :: ts => (c :: t) :: ts
      | [] => [[c]]

/-- Embeds `re.search(r'[가-힣]', s)` used as the native-script validity signal. -/
def containsHangul (s : List Char) : Bool :=
  s.any isHangul

/-- The value of a run of ASCII digits, `int(digits)`. -/
def digitsToInt (ds : List Char) : Int :=
  Int.ofNat (ds.foldl (fun n c => n * 10 + (c.toNat - '0'.toNat)) 0)

theorem length_dropWhile_le_length (p : Char → Bool) (l : List Char) :
    (l.dropWhile p).length ≤ l.length :=
  (List.dropWhile_sublist p).length_le

/-- Maximal runs of characters satisfying `p`, in order (characters not
satisfying `p` act as separators and are dropped).  With
`p = (!isPySpace ·)` this is Python `str.split()`; with `p = isPyWord`
the runs are the `\b`-delimited words of the text. -/
def tokensBy (p : Char → Bool) : List Char → List (List Char)
  | [] => []
  | c :: rest =>
    if p c then
      match rest with
      | [] => [[c]]
      | d :: _ =>
        if p d then
          match tokensBy p rest with
          | t :: ts => (c :: t) :: ts
          | [] => [[c]]
        else [c] :: tokensBy p rest
    else tokensBy p rest

/-- Characterises `tokensBy` in takeWhile / dropWhile form: a run is
the maximal prefix of satisfying characters. -/
theorem tokensBy_cons_pos (p : Char → Bool) (c : Char) (rest : List Char)
    (h : p c = true) :
    tokensBy p (c :: rest) =
      (c :: rest.takeWhile p) :: tokensBy p (rest.dropWhile p) := by
  induction rest generalizing c with
  | nil => simp [tokensBy, h]
  | cons d r2 ih =>
    by_cases hd : p d = true
    · rw [show tokensBy p (c :: d :: r2) =
          (match tokensBy p (d :: r2) with
           | t :: ts => (c :: t) :: ts
           | [] => [[c]]) by simp [tokensBy, h, hd]]
      rw [ih d hd]
      simp [List.takeWhile_cons, List.dropWhile_cons, hd]
    · have hd2 : p d = false := by simpa using hd
      simp [tokensBy, h, hd2, List.takeWhile_cons, List.dropWhile_cons]

theorem tokensBy_cons_neg (p : Char → Bool) (c : Char) (rest : List Char)
    (h : p c = false) : tokensBy p (c :: rest) = tokensBy p rest := by
  simp [tokensBy, h]

/-- Embeds `' '.join(tokens)`. -/
def joinTok : List (List Char) → List Char
  | [] => []
  | [t] => t
  | t :: ts => t ++ ' ' :: joinTok ts

/-- Embeds `' '.join(s.split())` — collapse whitespace runs to single spaces and
trim both ends (lines 246, 255 and 400 of the source, and part of the
normalisation of `parse_vocab_table`). -/
def collapseWS (s : List Char) : List Char :=
  joinTok (tokensBy (fun c => !isPySpace c) s)

/-! ### Part-of-speech tag handling (the GlyphNormalizer pieces) -/

/-- Whether `re.match(r'^[avn]\.\s*', s)` succeeds. -/
def hasLeadingTag : List Char → Bool
  | c :: '.' :: _ => isTagLetter c
  | _ => false

/-- Embeds `re.sub(r'^[avn]\.\s*', '', s)` — strip one leading part-of-speech
tag together with the whitespace run following it (lines 244, 253, 336,
353, 381, 399 of the source). -/
def stripLeadingTag (s : List Char) : List Char :=
  match s with
  | c :: '.' :: rest => if isTagLetter c then rest.dropWhile isPySpace else s
  | _ => s

/-- Whether the non-overlapping scan of `re.sub(r'\s+[avn]\.\s*', ...)`
finds a match anywhere in `s`: some position starts a whitespace run
whose end is followed by a tag letter and a dot. -/
def hasInteriorTag : List Char → Bool
  | [] => false
  | c :: rest =>
    (isPySpace c &&
      (match rest.dropWhile isPySpace with
       | t :: '.' :: _ => isTagLetter t
       | _ => false)) || hasInteriorTag rest

/-- Embeds `re.sub(r'\s+[avn]\.\s*', ', ', s)` — replace each (non-overlapping,
leftmost-first) interior part-of-speech marker by a comma-space (lines
245 and 254 of the source).  `\s+` is greedy, so a match starting at a
whitespace character extends through the whole whitespace run and the
tag letter must follow the run; the trailing `\s*` is greedy as well,
and scanning resumes after the replaced text. -/
def replInteriorTagF : Nat → List Char → List Char
  | 0, s => s
  | _ + 1, [] => []
  | fuel + 1, c :: rest =>
    if isPySpace c then
      match rest.dropWhile isPySpace with
      | t :: '.' :: r2 =>
        if isTagLetter t then
          ',' :: ' ' :: replInteriorTagF fuel (r2.dropWhile isPySpace)
        else
          c :: replInteriorTagF fuel rest
      | _ => c :: replInteriorTagF fuel rest
    else
      c :: replInteriorTagF fuel rest

/-- The substitution with enough fuel (every scan step advances by at
least one character, so the length of the text suffices). -/
def replInteriorTag (s : List Char) : List Char :=
  replInteriorTagF s.length s

/-- The meaning normalisation of the two-line OCR matcher
(`parse_ocr_vocab_text`, lines 244–246 and 253–255): strip a leading
part-of-speech tag, replace interior tags by comma-space, collapse
whitespace. -/
def normOcrMeaning (s : List Char) : List Char :=
  collapseWS (replInteriorTag (stripLeadingTag s))

/-! ### Data model -/

/-- The `VocabItem` dataclass (`number`, `word`, `meaning`, optional
`pos`, which defaults to `None`). -/
structure VocabItem where
  number : Int
  word : String
  meaning : String
  pos : Option String := none
deriving DecidableEq

/-! ### Regex matchers

Each matcher embeds one concrete pattern of the source.  A matcher that
anchors at the current position returns the captured groups together
with the remainder of the text after the match (the `findall` scans
resume there).  Optional pieces (`[...]?`, `(?:...)?`, `\.?`) follow the
regex backtracking discipline: the branch that consumes text is tried
first and the whole continuation is retried without it on failure. -/

/-- Embeds `[a-zA-Z][a-zA-Z\-]*` at the head of `s`: the word token and the
remainder. -/
def matchWordTok (s : List Char) : Option (List Char × List Char) :=
  match s with
  | c :: rest =>
    if isAsciiLetter c then
      some (c :: rest.takeWhile isWordTail, rest.dropWhile isWordTail)
    else none
  | [] => none

/-- Embeds `\d+` at the head of `s`. -/
def matchDigits (s : List Char) : Option (List Char × List Char) :=
  let ds := s.takeWhile Char.isDigit
  if ds.isEmpty then none else some (ds, s.dropWhile Char.isDigit)

/-- The optional checkbox glyph with surrounding `\s*`:
`\s*[glyph]?\s*` followed by the continuation `k`.  The glyph-consuming
branch is tried first; if the continuation fails the glyph is given back
(regex backtracking on `?`). -/
def glyphSkip {α : Type} (isGlyph : Char → Bool)
    (k : List Char → Option α) (s : List Char) : Option α :=
  let r1 := s.dropWhile isPySpace
  (match r1 with
   | g :: r2 => if isGlyph g then k (r2.dropWhile isPySpace) else none
   | [] => none) <|> k r1

/-- Embeds `re.match(r'^(\d+)\s*[O□☐\[\]oO]?\s*([a-zA-Z][a-zA-Z\-]*)', line)` —
the number/word head pattern of `parse_ocr_vocab_text` (line 232).
Returns (digits, word, text after the match). -/
def ocrHeadMatch (s : List Char) : Option (List Char × List Char × List Char) :=
  match matchDigits s with
  | none => none
  | some (ds, r) =>
    glyphSkip isGlyphOcr
      (fun u => (matchWordTok u).map (fun wr => (ds, wr.1, wr.2))) r

/-- Embeds `re.match(r'^(\d+)\s*[□☐\[\]O]?\s*([a-zA-Z][a-zA-Z\-]*)\s+(.+)$', line)`
— the full-record pattern of the stateful fallback scanner (line 375).
The input is a single line (no newline characters), so `.` is unrestricted
and `$` is the end of the line.  `\s+` is greedy; if nothing is left for
`(.+)` it gives back one character, which `.` then matches (only possible
when the whitespace run has length at least 2). -/
def scanFullMatch (s : List Char) : Option (List Char × List Char × List Char) :=
  match matchDigits s with
  | none => none
  | some (ds, r) =>
    glyphSkip isGlyphSimple
      (fun u =>
        match matchWordTok u with
        | none => none
        | some (w, rem) =>
          let run := rem.takeWhile isPySpace
          if run.isEmpty then none
          else
            match rem.dropWhile isPySpace with
            | [] =>
              if 2 ≤ run.length then some (ds, w, run.drop (run.length - 1))
              else none
            | rem2 => some (ds, w, rem2)) r

/-- Embeds `re.match(r'^(\d+)\s*[□☐\[\]O]?\s*([a-zA-Z][a-zA-Z\-]*)$', line)` —
the number-plus-word-only pattern of the stateful fallback scanner
(line 389). -/
def scanNumWordMatch (s : List Char) : Option (List Char × List Char) :=
  match matchDigits s with
  | none => none
  | some (ds, r) =>
    glyphSkip isGlyphSimple
      (fun u =>
        match matchWordTok u with
        | some (w, []) => some (ds, w)
        | _ => none) r

/-- Embeds `re.match(r'^[a-zA-Z][a-zA-Z\-]*$', line)` — a bare alphabetic token
line (line 407). -/
def isBareWordLine (s : List Char) : Bool :=
  match s with
  | c :: rest => isAsciiLetter c && rest.all isWordTail
  | [] => false

/-- The optional parenthetical `(?:\s*\([^)]+\))?` after a word token.
On success the matched text is appended to the word group (group 2 of
the pattern includes it).  `k` is the continuation for the rest of the
pattern; the consuming branch is tried first. -/
def parenSkip {α : Type} (k : List Char → List Char → Option α)
    (w rem : List Char) : Option α :=
  let ws := rem.takeWhile isPySpace
  (match rem.dropWhile isPySpace with
   | '(' :: r2 =>
     let content := r2.takeWhile (fun c => !(c == ')'))
     if content.isEmpty then none
     else
       match r2.dropWhile (fun c => !(c == ')')) with
       | ')' :: r3 => k (w ++ ws ++ '(' :: content ++ [')']) r3
       | _ => none
   | _ => none) <|> k w rem

/-- Embeds `\.?\s*[가-힣].*?` with the lookahead `(?=\n\d+|\n*$)` (under
`re.MULTILINE` that lookahead holds exactly at a position that is the
end of the text or is followed by a newline, so the lazy `.*?` — `.`
does not match a newline — extends to the end of the current line).
`s` starts right after the `[avn]` letter; returns the text matched
from the dot onward and the remainder.  The dot-consuming branch is tried
first (`\.?` is greedy). -/
def tagMeaningTail (s : List Char) : Option (List Char × List Char) :=
  let core : List Char → Option (List Char × List Char) := fun v =>
    let ws2 := v.takeWhile isPySpace
    match v.dropWhile isPySpace with
    | h :: v2 =>
      if isHangul h then
        some (ws2 ++ h :: v2.takeWhile (fun c => !(c == '\n')),
              v2.dropWhile (fun c => !(c == '\n')))
      else none
    | [] => none
  match s with
  | '.' :: u => (core u).map (fun pr => ('.' :: pr.1, pr.2)) <|> core s
  | _ => core s

/-- One attempt of the two-line pattern of `parse_vocab_simple`
(line 327):

`(\d+)\s*[□☐\[\]O]?\s*([a-zA-Z][a-zA-Z\-]*(?:\s*\([^)]+\))?)\s*\n\s*([avn]\.?\s*[가-힣].*?)(?=\n\d+|\n*$)`

anchored at the head of `s`.  `\s*\n\s*` consumes a whole whitespace run
that must contain a newline (greedy `\s*` with backtracking on the
mandatory `\n`).  Returns ((digits, word group, meaning group),
remainder). -/
def twoLineMatchAt (s : List Char) :
    Option ((List Char × List Char × List Char) × List Char) :=
  match matchDigits s with
  | none => none
  | some (ds, r) =>
    glyphSkip isGlyphSimple
      (fun u =>
        match matchWordTok u with
        | none => none
        | some (w, rem) =>
          parenSkip
            (fun g2 rem2 =>
              let run := rem2.takeWhile isPySpace
              if run.contains '\n' then
                match rem2.dropWhile isPySpace with
                | t :: u2 =>
                  if isTagLetter t then
                    (tagMeaningTail u2).map
                      (fun pr => ((ds, g2, t :: pr.1), pr.2))
                  else none
                | [] => none
              else none)
            w rem) r

/-- Embeds `[avn]\.\s*[가-힣][^\n]*` — the meaning group of the one-line
pattern (the dot is mandatory, the match then runs to the end of the
line).  `s` starts at the `[avn]` letter. -/
def oneLineMeaning (s : List Char) : Option (List Char × List Char) :=
  match s with
  | t :: '.' :: u =>
    if isTagLetter t then
      let ws2 := u.takeWhile isPySpace
      match u.dropWhile isPySpace with
      | h :: v2 =>
        if isHangul h then
          some (t :: '.' :: ws2 ++ h :: v2.takeWhile (fun c => !(c == '\n')),
                v2.dropWhile (fun c => !(c == '\n')))
        else none
      | [] => none
    else none
  | _ => none

/-- One attempt of the one-line pattern of `parse_vocab_simple`
(line 345):

`(\d+)\s*[□☐\[\]O]?\s*([a-zA-Z][a-zA-Z\-]*(?:\s*\([^)]+\))?)\s+([avn]\.\s*[가-힣][^\n]*)`

anchored at the head of `s`. -/
def oneLineMatchAt (s : List Char) :
    Option ((List Char × List Char × List Char) × List Char) :=
  match matchDigits s with
  | none => none
  | some (ds, r) =>
    glyphSkip isGlyphSimple
      (fun u =>
        match matchWordTok u with
        | none => none
        | some (w, rem) =>
          parenSkip
            (fun g2 rem2 =>
              let run := rem2.takeWhile isPySpace
              if run.isEmpty then none
              else
                (oneLineMeaning (rem2.dropWhile isPySpace)).map
                  (fun pr => ((ds, g2, pr.1), pr.2)))
            w rem) r

/-- The record-boundary lookahead `(?=\d+\s*[□☐\[\]]|$)` of the
whole-block table pattern (no `re.MULTILINE`, so `$` is the end of the
text or just before a final newline). -/
def tableBound (v : List Char) : Bool :=
  (match matchDigits v with
   | some (_, r) =>
     match r.dropWhile isPySpace with
     | g :: _ => isGlyphTable g
     | [] => false
   | none => false) ||
  v.isEmpty || v == ['\n']

/-- The lazy `(.+?)` of the table pattern under `re.DOTALL`: grow from
one character until the boundary lookahead holds. -/
def tableMeaningGrow (acc : List Char) (v : List Char) :
    Option (List Char × List Char) :=
  match v with
  | [] => none
  | c :: v2 =>
    if tableBound v2 then some ((acc ++ [c]), v2)
    else tableMeaningGrow (acc ++ [c]) v2

/-- One attempt of the whole-block table pattern of `parse_vocab_table`
(line 278, compiled with `re.DOTALL`):

`(\d+)\s*[□☐\[\]]\s*([a-zA-Z\-]+)\s+(.+?)(?=\d+\s*[□☐\[\]]|$)`

anchored at the head of `s`.  The checkbox glyph is mandatory here and
the word class is `[a-zA-Z\-]+`.  When the greedy `\s+` reaches the end
of the text the lazy group backtracks into the whitespace run and
captures its final character (possible only when the run has length at
least 2). -/
def tableMatchAt (s : List Char) :
    Option ((List Char × List Char × List Char) × List Char) :=
  match matchDigits s with
  | none => none
  | some (ds, r) =>
    match r.dropWhile isPySpace with
    | g :: r2 =>
      if isGlyphTable g then
        let u := r2.dropWhile isPySpace
        let w := u.takeWhile isWordTail
        if w.isEmpty then none
        else
          let rem := u.dropWhile isWordTail
          let run := rem.takeWhile isPySpace
          if run.isEmpty then none
          else
            match rem.dropWhile isPySpace with
            | [] =>
              if 2 ≤ run.length then
                some ((ds, w, run.drop (run.length - 1)), [])
              else none
            | u2 => (tableMeaningGrow [] u2).map (fun pr => ((ds, w, pr.1), pr.2))
      else none
    | [] => none

/-- The `re.findall` scan: try the pattern at every position from left
to right; on a match, record the groups and resume after the matched
text (every successful match here consumes at least one character, so a
fuel equal to the length of the text suffices). -/
def findAllByFuel {γ : Type}
    (matchAt : List Char → Option (γ × List Char)) :
    Nat → List Char → List γ
  | 0, _ => []
  | fuel + 1, s =>
    match matchAt s with
    | some (g, rest) => g :: findAllByFuel matchAt fuel rest
    | none =>
      match s with
      | [] => []
      | _ :: t => findAllByFuel matchAt fuel t

def findAllTwoLine (s : List Char) : List (List Char × List Char × List Char) :=
  findAllByFuel twoLineMatchAt s.length s

def findAllOneLine (s : List Char) : List (List Char × List Char × List Char) :=
  findAllByFuel oneLineMatchAt s.length s

def findAllTable (s : List Char) : List (List Char × List Char × List Char) :=
  findAllByFuel tableMatchAt s.length s

/-! ### The word-boundary substitutions of `parse_vocab_table` -/

/-- Embeds `re.sub(r'\b[avn](?:d)?\.?\s*', '', s)` (line 289).  `prev` is the
original character before the current position (`none` at the start);
`\b` holds when `prev` is absent or not a word character.  Once the tag
letter matches at a boundary the rest of the pattern is all optional,
so the match always succeeds, greedily taking `d`, the dot and the
whitespace run.  Scanning resumes after the match with `prev` set to
the last matched character. -/
def subTagScan : Nat → Option Char → List Char → List Char
  | 0, _, s => s
  | fuel + 1, prev, s =>
    match s with
    | [] => []
    | c :: rest =>
      let boundary := match prev with | none => true | some p => !isPyWord p
      if boundary && isTagLetter c then
        let m1r1 : List Char × List Char :=
          match rest with
          | 'd' :: r => (['d'], r)
          | _ => ([], rest)
        let m2r2 : List Char × List Char :=
          match m1r1.2 with
          | '.' :: r => (['.'], r)
          | _ => ([], m1r1.2)
        let ws := m2r2.2.takeWhile isPySpace
        let matched := c :: (m1r1.1 ++ m2r2.1 ++ ws)
        subTagScan fuel matched.getLast? (m2r2.2.dropWhile isPySpace)
      else
        c :: subTagScan fuel (some c) rest

/-- Embeds `re.sub(r'\b[avn](?:d)?\.?\s*', '', s)` with enough fuel. -/
def subTagAll (s : List Char) : List Char :=
  subTagScan s.length none s

/-- Embeds `re.findall(r'\b([avn](?:d)?)\.\s*', s)` (line 296) — collect the
part-of-speech letters (with an optional `d`); the dot is mandatory
here, so a lone tag letter not followed by a dot (after the optional
`d`) is not a match and scanning moves on. -/
def posTagScan : Nat → Option Char → List Char → List (List Char)
  | 0, _, _ => []
  | fuel + 1, prev, s =>
    match s with
    | [] => []
    | c :: rest =>
      let boundary := match prev with | none => true | some p => !isPyWord p
      if boundary && isTagLetter c then
        match rest with
        | 'd' :: '.' :: r2 =>
          let ws := r2.takeWhile isPySpace
          [c, 'd'] :: posTagScan fuel ('.' :: ws).getLast? (r2.dropWhile isPySpace)
        | '.' :: r2 =>
          let ws := r2.takeWhile isPySpace
          [c] :: posTagScan fuel ('.' :: ws).getLast? (r2.dropWhile isPySpace)
        | _ => posTagScan fuel (some c) rest
      else posTagScan fuel (some c) rest

def findPosTags (s : List Char) : List (List Char) :=
  posTagScan s.length none s

/-- Embeds `', '.join(parts)`. -/
def joinCommaSp : List (List Char) → List Char
  | [] => []
  | [t] => t
  | t :: ts => t ++ ',' :: ' ' :: joinCommaSp ts

/-! ### The parsers -/

/-- Embeds `parse_vocab_table` (lines 269–307): whole-block matcher for clean
extracted text.  For each match: strip all part-of-speech markers from
the trailing text (they are deleted, `re.sub` with an empty
replacement), collapse whitespace, collect the markers into `pos`, and
keep the record only when word and cleaned meaning are non-empty. -/
def parse_vocab_table (text : String) : List VocabItem :=
  (findAllTable text.data).filterMap (fun g =>
    let word := stripWS g.2.1
    let meaningRaw := stripWS g.2.2
    let meaningClean := stripWS (collapseWS (subTagAll meaningRaw))
    let posList := findPosTags meaningRaw
    let pos : Option String :=
      if posList.isEmpty then none else some (String.mk (joinCommaSp posList))
    if !word.isEmpty && !meaningClean.isEmpty then
      some ⟨digitsToInt g.1, String.mk word, String.mk meaningClean, pos⟩
    else none)

/-- The same-line meaning fallback of `parse_ocr_vocab_text`
(lines 250–255): the rest of the matched line, stripped; accepted only
when it contains Hangul, then normalised. -/
def ocrSameLineMeaning (rem : List Char) : List Char :=
  let r := stripWS rem
  if containsHangul r then normOcrMeaning r else []

/-- Emission guard of `parse_ocr_vocab_text` (line 257):
`if word and len(word) > 1 and meaning`. -/
def ocrEmit (ds w m : List Char) : List VocabItem :=
  if !w.isEmpty && 1 < w.length && !m.isEmpty then
    [⟨digitsToInt ds, String.mk w, String.mk m, none⟩]
  else []

/-- The line loop of `parse_ocr_vocab_text` (lines 226–264): on a
number/word head match, prefer a Hangul meaning on the following line
(consuming it); otherwise look for a Hangul meaning in the rest of the
current line. -/
def ocrLoop : List (List Char) → List VocabItem
  | [] => []
  | [l] =>
    match ocrHeadMatch (stripWS l) with
    | none => []
    | some (ds, w, rem) => ocrEmit ds w (ocrSameLineMeaning rem)
  | l :: next :: rest2 =>
    match ocrHeadMatch (stripWS l) with
    | none => ocrLoop (next :: rest2)
    | some (ds, w, rem) =>
      if containsHangul (stripWS next) then
        let m0 := normOcrMeaning (stripWS next)
        let m := if m0.isEmpty then ocrSameLineMeaning rem else m0
        ocrEmit ds w m ++ ocrLoop rest2
      else
        ocrEmit ds w (ocrSameLineMeaning rem) ++ ocrLoop (next :: rest2)

/-- Embeds `parse_ocr_vocab_text` (lines 219–266). -/
def parse_ocr_vocab_text (text : String) : List VocabItem :=
  ocrLoop (splitOnChar '\n' text.data)

/-! ### The stateful fallback scanner of `parse_vocab_simple` -/

/-- The mutable loop state of method 3 (lines 362–363): the accumulated
list and the pending number/word. -/
structure ScanState where
  acc : List VocabItem
  curNum : Option Int
  curWord : Option (List Char)

/-- Embeds `save_item` (lines 365–371): a missing number becomes the next
sequential position, a missing meaning becomes the placeholder
sentinel. -/
def saveItem (acc : List VocabItem) (number : Option Int)
    (word meaning : List Char) : List VocabItem :=
  let n := number.getD (Int.ofNat (acc.length + 1))
  let m : String := if meaning.isEmpty then "[뜻 입력 필요]" else String.mk meaning
  acc ++ [⟨n, String.mk word, m, none⟩]

/-- Branch 2 of the scanner loop (lines 389–395): a number+word line
flushes any pending word (with the pending number and an empty
meaning) and becomes the new pending record. -/
def scanStepNumWord : ScanState → List Char × List Char → ScanState
  | ⟨acc, curNum, some pw⟩, g =>
    ⟨saveItem acc curNum pw [], some (digitsToInt g.1), some g.2⟩
  | ⟨acc, curNum, none⟩, g =>
    ⟨acc, some (digitsToInt g.1), some g.2⟩

/-- Branches 3–5 of the scanner loop (lines 397–411): a Hangul line
completes a pending word; a bare word line flushes any pending word and
becomes the pending word itself, keeping the stale pending number; any
other line leaves the state unchanged. -/
def scanStepOther : ScanState → List Char → ScanState
  | ⟨acc, curNum, some pw⟩, line =>
    if containsHangul line then
      ⟨saveItem acc curNum pw (collapseWS (stripLeadingTag line)),
       none, none⟩
    else if isBareWordLine line then
      ⟨saveItem acc curNum pw [], curNum, some line⟩
    else ⟨acc, curNum, some pw⟩
  | ⟨acc, curNum, none⟩, line =>
    if isBareWordLine line then ⟨acc, curNum, some line⟩
    else ⟨acc, curNum, none⟩

/-- One iteration of the scanner loop (lines 373–411), in the order of
the source: a full record line is consumed first when its trailing text
has Hangul — note the pending word is then discarded without being
flushed; otherwise the number+word branch, then the remaining
branches. -/
def scanStep (st : ScanState) (line : List Char) : ScanState :=
  match scanFullMatch line with
  | some (ds, w, g3) =>
    let meaning := stripLeadingTag (stripWS g3)
    if containsHangul meaning then
      ⟨saveItem st.acc (some (digitsToInt ds)) w meaning, none, none⟩
    else
      match scanNumWordMatch line with
      | some g => scanStepNumWord st g
      | none => scanStepOther st line
  | none =>
    match scanNumWordMatch line with
    | some g => scanStepNumWord st g
    | none => scanStepOther st line

/-- End-of-input flush (lines 413–414). -/
def scanFinish (st : ScanState) : List VocabItem :=
  match st.curWord with
  | some pw => saveItem st.acc st.curNum pw []
  | none => st.acc

/-- Line preparation of method 3 (line 360): strip every line, keep the
non-empty ones. -/
def prepScanLines (text : String) : List (List Char) :=
  ((splitOnChar '\n' text.data).map stripWS).filter (fun l => !l.isEmpty)

/-- The scanner run, starting from the vocab list accumulated so far
(the Python loop appends to the enclosing function's `vocab_list`). -/
def runScanner (init : List VocabItem) (lines : List (List Char)) : List VocabItem :=
  scanFinish (lines.foldl scanStep ⟨init, none, none⟩)

/-- The stateful line scanner as a stand-alone strategy (method 3 of
`parse_vocab_simple`, reached with an empty accumulated list). -/
def scannerParse (text : String) : List VocabItem :=
  runScanner [] (prepScanLines text)

/-- The sort key relation of
`sorted(vocab_list, key=lambda x: x.number)`. -/
def numberLE (a b : VocabItem) : Prop :=
  a.number ≤ b.number

instance : DecidableRel numberLE := fun a b =>
  inferInstanceAs (Decidable (a.number ≤ b.number))

instance : IsTotal VocabItem numberLE :=
  ⟨fun a b => Int.le_total a.number b.number⟩

instance : IsTrans VocabItem numberLE :=
  ⟨fun _ _ _ h1 h2 => le_trans h1 h2⟩

/-- Python `sorted(vocab_list, key=lambda x: x.number)` — a stable sort
ascending by `number`.  Python's sort and insertion sort are both
stable, so they agree on every input. -/
def sortByNumber (l : List VocabItem) : List VocabItem :=
  List.insertionSort numberLE l

/-- Record construction shared by methods 1 and 2 of
`parse_vocab_simple` (lines 331–338 and 349–355): strip the word and
meaning groups, strip one leading part-of-speech tag from the meaning,
keep the record when both are non-empty. -/
def simpleEntry (g : List Char × List Char × List Char) : Option VocabItem :=
  let word := stripWS g.2.1
  let meaning := stripLeadingTag (stripWS g.2.2)
  if !word.isEmpty && !meaning.isEmpty then
    some ⟨digitsToInt g.1, String.mk word, String.mk meaning, none⟩
  else none

/-- The entry list produced by the two-line pattern (method 1). -/
def twoLineEntries (text : String) : List VocabItem :=
  (findAllTwoLine text.data).filterMap simpleEntry

/-- The entry list produced by the one-line pattern (method 2). -/
def oneLineEntries (text : String) : List VocabItem :=
  (findAllOneLine text.data).filterMap simpleEntry

/-- Embeds `parse_vocab_simple` (lines 317–416): the parse cascade.  Method 1
(two-line pattern) returns its sorted entries when the pattern matched
and the entry list is non-empty; otherwise method 2 (one-line pattern)
does the same, appending to the same `vocab_list`; otherwise method 3
(the stateful scanner) runs on that list. -/
def parse_vocab_simple (text : String) : List VocabItem :=
  let m2 := findAllTwoLine text.data
  let e2 := m2.filterMap simpleEntry
  if !m2.isEmpty && !e2.isEmpty then sortByNumber e2
  else
    let m1 := findAllOneLine text.data
    let e1 := e2 ++ m1.filterMap simpleEntry
    if !m1.isEmpty && !e1.isEmpty then sortByNumber e1
    else runScanner e1 (prepScanLines text)

/-! ### The CSV fallback of `load_vocab_from_text` -/

/-- Python `line.split(',', 2)`: at most two splits, so at most three
parts, the third keeping any further commas. -/
def splitComma2 (s : List Char) : List (List Char) :=
  let a := s.takeWhile (fun c => !(c == ','))
  match s.dropWhile (fun c => !(c == ',')) with
  | ',' :: r1 =>
    let b := r1.takeWhile (fun c => !(c == ','))
    match r1.dropWhile (fun c => !(c == ',')) with
    | ',' :: r2 => [a, b, r2]
    | _ => [a, b]
  | _ => [a]

/-- Validity of the character run after the first digit for Python
`int(...)`: digits with single interior underscores. -/
def pyIntTailOk : List Char → Bool
  | [] => true
  | '_' :: r =>
    match r with
    | c :: r2 => c.isDigit && pyIntTailOk r2
    | [] => false
  | c :: r => c.isDigit && pyIntTailOk r

/-- Python `int(s)` on a decimal string: surrounding whitespace and one
sign allowed, then digits with single interior underscores; `none`
models a raised `ValueError`. -/
def pyIntOfString (s : List Char) : Option Int :=
  let t := stripWS s
  let su : Int × List Char :=
    match t with
    | '+' :: r => (1, r)
    | '-' :: r => (-1, r)
    | _ => (1, t)
  match su.2 with
  | c :: r =>
    if c.isDigit && pyIntTailOk r then
      some (su.1 * digitsToInt (su.2.filter Char.isDigit))
    else none
  | [] => none

/-- One line of the CSV fallback loop of `load_vocab_from_text`
(lines 438–466); `i` is the 0-based position of the line in the raw
line list (Python `enumerate`).  Returns the record appended for this
line, if any. -/
def csvLineEntry (i : Nat) (rawLine : List Char) : Option VocabItem :=
  let line := stripWS rawLine
  if line.isEmpty || line.head? == some '#' then none
  else
    let parts := splitComma2 line
    if 3 ≤ parts.length then
      let number := (pyIntOfString (parts.getD 0 [])).getD (Int.ofNat (i + 1))
      let word := stripWS (parts.getD 1 [])
      let meaning := stripWS (parts.getD 2 [])
      if !word.isEmpty && !meaning.isEmpty then
        some ⟨number, String.mk word, String.mk meaning, none⟩
      else none
    else if parts.length == 2 then
      let word := stripWS (parts.getD 0 [])
      let meaning := stripWS (parts.getD 1 [])
      if !word.isEmpty && !meaning.isEmpty then
        some ⟨Int.ofNat (i + 1), String.mk word, String.mk meaning, none⟩
      else none
    else none

/-- The CSV fallback stage of `load_vocab_from_text` (lines 434–468). -/
def csvFallbackEntries (text : String) : List VocabItem :=
  ((splitOnChar '\n' text.data).enum).filterMap (fun p => csvLineEntry p.1 p.2)

/-- Embeds `load_vocab_from_text` (lines 419–468) applied to the file content:
the smart cascade first, the CSV schema only when it produced
nothing. -/
def load_vocab_from_text (text : String) : List VocabItem :=
  let v := parse_vocab_simple text
  if !v.isEmpty then v else csvFallbackEntries text

/-! ### Merge / dedup of `extract_vocab_with_ocr_table` -/

/-- The dedup loop of `extract_vocab_with_ocr_table` (lines 209–214):
keep an item when its number has not been seen, remembering seen
numbers. -/
def dedupByNumber : List VocabItem → List Int → List VocabItem
  | [], _ => []
  | x :: xs, seen =>
    if seen.contains x.number then dedupByNumber xs seen
    else x :: dedupByNumber xs (x.number :: seen)

/-- The merge step of `extract_vocab_with_ocr_table` (lines 206–216):
the per-page / per-column candidate lists are concatenated in call
order (`vocab_list.extend`), stably sorted by number, and deduplicated
by number keeping the first occurrence. -/
def mergeOcrResults (lists : List (List VocabItem)) : List VocabItem :=
  dedupByNumber (sortByNumber lists.flatten) []

/-! ### Orientation correction -/

/-- A PIL image as the tree of geometric operations applied to a source
image: `rot img deg expand` is `img.rotate(deg, expand=expand)` and
`thumb img w h` is a copy shrunk by `img.thumbnail((w, h))`. -/
inductive PILImage where
  | source : Nat → PILImage
  | rot : PILImage → Int → Bool → PILImage
  | thumb : PILImage → Nat → Nat → PILImage
deriving DecidableEq

/-- The external Tesseract engine: the `HAS_OCR` availability flag, the
OSD orientation estimate (`none` models a raised exception, i.e.
detection failing) and plain recognition (`none` models a raised
exception). -/
structure OcrEngine where
  hasOcrLib : Bool
  osd : PILImage → Option Int
  recognize : PILImage → Option String

/-- Embeds `len(re.findall(r'\b[a-zA-Z]{2,}\b', text))` (lines 78 and 83): the
number of maximal word-character runs consisting solely of ASCII
letters, of length at least two (the boundaries force the run to be
maximal and `[a-zA-Z]{2,}` must cover it entirely). -/
def countEnglishWords (t : String) : Nat :=
  ((tokensBy isPyWord t.data).filter
    (fun r => decide (2 ≤ r.length) && r.all isAsciiLetter)).length

/-- Embeds `detect_and_fix_orientation` (lines 49–92).  The engine OSD result
is used when available; when it fails, the two-pass heuristic OCRs a
downsampled copy as given and rotated 180°, counts alphabetic tokens of
length ≥ 2 in each text, and rotates the full image by 180° exactly
when the rotated count exceeds 1.5 times the original count
(`english_words_rotated > english_words_original * 1.5`).  Any failure
of the heuristic itself returns the image unchanged. -/
def detect_and_fix_orientation (e : OcrEngine) (img : PILImage) : PILImage :=
  if !e.hasOcrLib then img
  else
    match e.osd img with
    | some rotation =>
      if rotation ≠ 0 then PILImage.rot img (-rotation) true else img
    | none =>
      let testImg := PILImage.thumb img 800 800
      match e.recognize testImg with
      | none => img
      | some textOriginal =>
        match e.recognize (PILImage.rot testImg 180 false) with
        | none => img
        | some textRotated =>
          if ((countEnglishWords textRotated : ℚ) >
              (countEnglishWords textOriginal : ℚ) * (3 / 2)) then
            PILImage.rot img 180 false
          else img

/-- The rotation dispatch of `extract_vocab_with_ocr_table`
(lines 177–183): a non-zero `rotate` argument applies the fixed
rotation `img.rotate(-rotate, expand=True)`; `rotate == 0` means
automatic detection. -/
def ocrTableOrient (e : OcrEngine) (rotate : Int) (img : PILImage) : PILImage :=
  if rotate ≠ 0 then PILImage.rot img (-rotate) true
  else detect_and_fix_orientation e img

/-! ## Theorems -/

/-! ### Helper facts -/

/-- Nesting depth of the image-operation tree. -/
def imgDepth : PILImage → Nat
  | .source _ => 0
  | .rot i _ _ => imgDepth i + 1
  | .thumb i _ _ => imgDepth i + 1

theorem rot_ne_self (img : PILImage) (d : Int) (b : Bool) :
    PILImage.rot img d b ≠ img := by
  intro h
  have hd := congrArg imgDepth h
  simp only [imgDepth] at hd
  omega

/-- The float comparison `rotated > original * 1.5` on counts agrees
with the integer comparison `2 * rotated > 3 * original`. -/
theorem ratio_cmp (a b : Nat) :
    ((b : ℚ) > (a : ℚ) * (3 / 2)) ↔ 2 * b > 3 * a := by
  rw [gt_iff_lt, gt_iff_lt]
  rw [show ((3 : ℚ) / 2) = 3 / 2 from rfl]
  constructor
  · intro h
    have h2 : (a : ℚ) * 3 < (b : ℚ) * 2 := by
      have := mul_lt_mul_of_pos_right h (show (0:ℚ) < 2 by norm_num)
      calc (a : ℚ) * 3 = (a : ℚ) * (3 / 2) * 2 := by ring
        _ < (b : ℚ) * 2 := this
    have h3 : ((3 * a : Nat) : ℚ) < ((2 * b : Nat) : ℚ) := by push_cast; linarith
    exact_mod_cast h3
  · intro h
    have h3 : ((3 * a : Nat) : ℚ) < ((2 * b : Nat) : ℚ) := by exact_mod_cast h
    push_cast at h3
    nlinarith

/-! ### C6 — the two-pass orientation heuristic -/

/-- Claim C6: when the engine's orientation detection is unavailable or
fails (`osd` raises) and the two lightweight recognition passes return
texts for the downsampled image and its 180° rotation,
`detect_and_fix_orientation` counts alphabetic tokens of length at
least two in both texts and returns the full-resolution image rotated
180° if and only if the rotated count strictly exceeds 1.5 times the
original count; otherwise the image is returned unmodified. -/
theorem C6_orientation_heuristic (e : OcrEngine) (img : PILImage)
    (t1 t2 : String)
    (hLib : e.hasOcrLib = true)
    (hOsd : e.osd img = none)
    (h1 : e.recognize (PILImage.thumb img 800 800) = some t1)
    (h2 : e.recognize (PILImage.rot (PILImage.thumb img 800 800) 180 false) = some t2) :
    (2 * countEnglishWords t2 > 3 * countEnglishWords t1 →
      detect_and_fix_orientation e img = PILImage.rot img 180 false) ∧
    (¬(2 * countEnglishWords t2 > 3 * countEnglishWords t1) →
      detect_and_fix_orientation e img = img) ∧
    PILImage.rot img 180 false ≠ img := by
  refine ⟨?_, ?_, rot_ne_self img 180 false⟩ <;> intro hcmp <;>
    simp only [detect_and_fix_orientation, hLib, hOsd, h1, h2,
      Bool.not_true, Bool.false_eq_true, if_false]
  · rw [if_pos ((ratio_cmp _ _).mpr hcmp)]
  · rw [if_neg (fun hc => hcmp ((ratio_cmp _ _).mp hc))]

/-- A concrete engine whose orientation detection always fails and
whose recognition reads two alphabetic tokens on 180°-rotated images
and one otherwise. -/
def heurProbeEngine : OcrEngine where
  hasOcrLib := true
  osd := fun _ => none
  recognize := fun i =>
    match i with
    | .rot _ _ _ => some "ab cd"
    | _ => some "xy"

theorem C6_orientation_heuristic_witness :
    detect_and_fix_orientation heurProbeEngine (PILImage.source 2) =
      PILImage.rot (PILImage.source 2) 180 false :=
  (C6_orientation_heuristic heurProbeEngine (PILImage.source 2) "xy" "ab cd"
    rfl rfl rfl rfl).1 (by decide)

/-! ### C7 — forced rotation hints -/

/-- An engine whose orientation detection reports the image as rotated
by 180°. -/
def osdProbeEngine : OcrEngine where
  hasOcrLib := true
  osd := fun _ => some 180
  recognize := fun _ => none

/-- Counterexample to claim C7: with the rotation hint `0` the
orientation-correction step is *not* bypassed — the engine's detection
runs and rotates the image — so `0` does not behave as a forced fixed
rotation (it selects automatic detection instead). -/
theorem C7_counterexample :
    ocrTableOrient osdProbeEngine 0 (PILImage.source 0) =
      PILImage.rot (PILImage.source 0) (-180) true ∧
    PILImage.rot (PILImage.source 0) (-180) true ≠ PILImage.source 0 ∧
    PILImage.rot (PILImage.source 0) (-180) true ≠
      PILImage.rot (PILImage.source 0) (-(0 : Int)) true := by
  refine ⟨rfl, by decide, by decide⟩

/-- Claim C7 as amended: for a forced rotation hint in {90, 180, 270}
the orientation-correction steps are bypassed (the result does not
depend on the engine at all) and the fixed rotation is applied as
`img.rotate(-r, expand=True)`; the hint `0` instead selects automatic
detection. -/
theorem C7_fixed_rotation_bypass (e eAlt : OcrEngine) (r : Int)
    (img : PILImage) (hr : r = 90 ∨ r = 180 ∨ r = 270) :
    ocrTableOrient e r img = PILImage.rot img (-r) true ∧
    ocrTableOrient e r img = ocrTableOrient eAlt r img := by
  have hr0 : r ≠ 0 := by rcases hr with h | h | h <;> simp [h]
  constructor <;> simp [ocrTableOrient, hr0]

theorem C7_fixed_rotation_bypass_witness :
    ocrTableOrient osdProbeEngine 180 (PILImage.source 1) =
      PILImage.rot (PILImage.source 1) (-180) true :=
  (C7_fixed_rotation_bypass osdProbeEngine heurProbeEngine 180
    (PILImage.source 1) (Or.inr (Or.inl rfl))).1

/-! ### C1 — the parse cascade precedence -/

/-- Claim C1: `parse_vocab_simple` tries the two-line pattern, then the
one-line pattern, then the stateful line scanner, in that fixed order,
and returns the result of the first strategy whose entry list is
non-empty (the pattern strategies return their entries sorted by
number); in particular whenever the two-line entries are non-empty they
are returned, whatever the one-line pattern would produce. -/
theorem C1_cascade_precedence (text : String) :
    (twoLineEntries text ≠ [] →
      parse_vocab_simple text = sortByNumber (twoLineEntries text)) ∧
    (twoLineEntries text = [] → oneLineEntries text ≠ [] →
      parse_vocab_simple text = sortByNumber (oneLineEntries text)) ∧
    (twoLineEntries text = [] → oneLineEntries text = [] →
      parse_vocab_simple text = scannerParse text) := by
  refine ⟨?_, ?_, ?_⟩
  · intro h2
    have hm2 : findAllTwoLine text.data ≠ [] := by
      intro hm
      exact h2 (by simp [twoLineEntries, hm])
    have h2e : (findAllTwoLine text.data).filterMap simpleEntry ≠ [] := h2
    simp only [parse_vocab_simple, twoLineEntries] at *
    rw [if_pos (by simp [hm2, h2e])]
  · intro h2 h1
    have hm1 : findAllOneLine text.data ≠ [] := by
      intro hm
      exact h1 (by simp [oneLineEntries, hm])
    have h2e : (findAllTwoLine text.data).filterMap simpleEntry = [] := h2
    have h1e : (findAllOneLine text.data).filterMap simpleEntry ≠ [] := h1
    simp only [parse_vocab_simple, oneLineEntries, twoLineEntries] at *
    rw [if_neg (by simp [h2e]), h2e]
    rw [if_pos (by simp [hm1, h1e])]
    simp
  · intro h2 h1
    have h2e : (findAllTwoLine text.data).filterMap simpleEntry = [] := h2
    have h1e : (findAllOneLine text.data).filterMap simpleEntry = [] := h1
    simp only [parse_vocab_simple, scannerParse, twoLineEntries,
      oneLineEntries] at *
    rw [if_neg (by simp [h2e]), h2e]
    rw [if_neg (by simp [h1e]), h1e]
    simp

theorem C1_cascade_precedence_witness :
    parse_vocab_simple "1 ab\nv. 가" = [⟨1, "ab", "가", none⟩] := by
  have h := (C1_cascade_precedence "1 ab\nv. 가").1 (by decide)
  rw [h]
  decide

/-! ### C3 — the two-line example record -/

/-- Counterexample to claim C3: on the two-line input the two-line
parsers (`parse_ocr_vocab_text` and the two-line pattern branch of
`parse_vocab_simple`) do not populate the part-of-speech field — the
produced entry has `pos = none`, not `pos = some "a"`. -/
theorem C3_counterexample :
    parse_ocr_vocab_text "51 □ empty\na. 비어 있는" ≠
      [⟨51, "empty", "비어 있는", some "a"⟩] ∧
    parse_vocab_simple "51 □ empty\na. 비어 있는" ≠
      [⟨51, "empty", "비어 있는", some "a"⟩] := by
  decide

/-- Claim C3 as amended: on the line `"51 □ empty"` followed by
`"a. 비어 있는"` the two-line parse produces exactly one entry with
number 51, word `"empty"`, meaning `"비어 있는"`, and an *unset*
part-of-speech field (the two-line parsers never populate `pos`). -/
theorem C3_two_line_example :
    parse_ocr_vocab_text "51 □ empty\na. 비어 있는" =
      [⟨51, "empty", "비어 있는", none⟩] ∧
    parse_vocab_simple "51 □ empty\na. 비어 있는" =
      [⟨51, "empty", "비어 있는", none⟩] := by
  decide

/-! ### C9 — the CSV fallback line schema -/

/-- Claim C9: in the CSV fallback, a blank or comment line yields no
entry; on a `number,word,meaning` line whose number field fails integer
parsing the 1-based line index is substituted (parsing failure is local,
`csvLineEntry` is total — no exception propagates); and on a
`word,meaning` line the number is always the 1-based line index. -/
theorem C9_csv_line_schema (i : Nat) (raw : List Char) :
    ((stripWS raw = [] ∨ (stripWS raw).head? = some '#') →
      csvLineEntry i raw = none) ∧
    (3 ≤ (splitComma2 (stripWS raw)).length →
      pyIntOfString ((splitComma2 (stripWS raw)).getD 0 []) = none →
      ∀ e, csvLineEntry i raw = some e → e.number = Int.ofNat (i + 1)) ∧
    ((splitComma2 (stripWS raw)).length = 2 →
      ∀ e, csvLineEntry i raw = some e → e.number = Int.ofNat (i + 1)) := by
  refine ⟨?_, ?_, ?_⟩
  · intro h
    have hcond : (stripWS raw).isEmpty || (stripWS raw).head? == some '#' := by
      rcases h with h | h <;> simp [h]
    simp [csvLineEntry, hcond]
  · intro hlen hfail e he
    by_cases hskip : (stripWS raw).isEmpty || (stripWS raw).head? == some '#'
    · simp [csvLineEntry, hskip] at he
    · simp only [csvLineEntry, hskip, Bool.false_eq_true, if_false] at he
      rw [if_pos hlen] at he
      rw [hfail] at he
      by_cases hwm : (stripWS ((splitComma2 (stripWS raw)).getD 1 [])).isEmpty = false ∧
          (stripWS ((splitComma2 (stripWS raw)).getD 2 [])).isEmpty = false
      · rw [if_pos (by rw [hwm.1, hwm.2]; rfl)] at he
        cases he
        rfl
      · rw [if_neg (by
          intro hc
          rcases Bool.and_eq_true_iff.mp hc with ⟨hc1, hc2⟩
          exact hwm ⟨by simpa using hc1, by simpa using hc2⟩)] at he
        cases he
  · intro hlen e he
    by_cases hskip : (stripWS raw).isEmpty || (stripWS raw).head? == some '#'
    · simp [csvLineEntry, hskip] at he
    · simp only [csvLineEntry, hskip, Bool.false_eq_true, if_false] at he
      rw [if_neg (by omega)] at he
      rw [if_pos (by simp [hlen])] at he
      by_cases hwm : (stripWS ((splitComma2 (stripWS raw)).getD 0 [])).isEmpty = false ∧
          (stripWS ((splitComma2 (stripWS raw)).getD 1 [])).isEmpty = false
      · rw [if_pos (by rw [hwm.1, hwm.2]; rfl)] at he
        cases he
        rfl
      · rw [if_neg (by
          intro hc
          rcases Bool.and_eq_true_iff.mp hc with ⟨hc1, hc2⟩
          exact hwm ⟨by simpa using hc1, by simpa using hc2⟩)] at he
        cases he

theorem C9_csv_line_schema_witness :
    (∃ e, csvLineEntry 4 ("abc,apple,사과").data = some e ∧
      e.number = Int.ofNat 5) ∧
    csvLineEntry 0 ("# comment").data = none := by
  constructor
  · refine ⟨⟨5, "apple", "사과", none⟩, by decide, ?_⟩
    exact (C9_csv_line_schema 4 ("abc,apple,사과").data).2.1
      (by decide) (by decide) _ (by decide)
  · exact (C9_csv_line_schema 0 ("# comment").data).1 (by decide)

/-! ### C10 — minimum word length of the two-line OCR parser -/

theorem mem_ocrEmit {ds w m : List Char} {e : VocabItem}
    (h : e ∈ ocrEmit ds w m) : 2 ≤ e.word.length := by
  unfold ocrEmit at h
  split at h
  · rename_i hc
    simp only [List.mem_singleton] at h
    subst h
    have h1 : decide (1 < w.length) = true := by
      rcases Bool.and_eq_true_iff.mp hc with ⟨hc1, _⟩
      exact (Bool.and_eq_true_iff.mp hc1).2
    have h2 : 1 < w.length := of_decide_eq_true h1
    simpa [String.length] using h2
  · simp at h

theorem ocrLoop_word_length (ls : List (List Char)) :
    ∀ e : VocabItem, e ∈ ocrLoop ls → 2 ≤ e.word.length := by
  induction ls using ocrLoop.induct <;> intro e he <;>
    simp only [ocrLoop] at he
  · simp at he
  · rename_i l hmatch
    rw [hmatch] at he
    simp at he
  · rename_i l ds w rem hmatch
    rw [hmatch] at he
    exact mem_ocrEmit he
  · rename_i l next rest2 hmatch ih
    rw [hmatch] at he
    exact ih e he
  · rename_i l next rest2 ds w rem hmatch hhan ih
    rw [hmatch] at he
    simp only [hhan, if_true, List.mem_append] at he
    rcases he with h | h
    · exact mem_ocrEmit h
    · exact ih e h
  · rename_i l next rest2 ds w rem hmatch hhan ih
    rw [hmatch] at he
    have hh2 : containsHangul (stripWS next) = false := by simpa using hhan
    simp only [hh2, Bool.false_eq_true, if_false, List.mem_append] at he
    rcases he with h | h
    · exact mem_ocrEmit h
    · exact ih e h

/-- Claim C10: every entry emitted by the two-line OCR parser has a
word of at least two characters; a matched single-character word is
dropped even when a valid native-script meaning is present. -/
theorem C10_word_min_length :
    (∀ (text : String) (e : VocabItem),
      e ∈ parse_ocr_vocab_text text → 2 ≤ e.word.length) ∧
    parse_ocr_vocab_text "1 a\nv. 하나" = [] :=
  ⟨fun _ e he => ocrLoop_word_length _ e he, by decide⟩

theorem C10_word_min_length_witness :
    2 ≤ (VocabItem.mk 51 "empty" "비어 있는" none).word.length :=
  C10_word_min_length.1 "51 □ empty\na. 비어 있는"
    (VocabItem.mk 51 "empty" "비어 있는" none) (by decide)

/-! ### C2 — the merge / dedup postcondition -/

theorem dedupByNumber_sublist :
    ∀ (l : List VocabItem) (seen : List Int),
      List.Sublist (dedupByNumber l seen) l := by
  intro l
  induction l with
  | nil => intro seen; simp [dedupByNumber]
  | cons x xs ih =>
    intro seen
    rw [dedupByNumber]
    by_cases hc : seen.contains x.number
    · rw [if_pos hc]
      exact (ih seen).cons x
    · rw [if_neg hc]
      exact (ih (x.number :: seen)).cons₂ x

theorem mem_dedupByNumber_not_seen :
    ∀ (l : List VocabItem) (seen : List Int) (e : VocabItem),
      e ∈ dedupByNumber l seen → seen.contains e.number = false := by
  intro l
  induction l with
  | nil => intro seen e he; simp [dedupByNumber] at he
  | cons x xs ih =>
    intro seen e he
    by_cases hc : seen.contains x.number
    · rw [dedupByNumber, if_pos hc] at he
      exact ih seen e he
    · rw [dedupByNumber, if_neg hc] at he
      rcases List.mem_cons.mp he with rfl | he2
      · simpa using hc
      · have h2 := ih (x.number :: seen) e he2
        simp only [List.contains_cons, Bool.or_eq_false_iff] at h2
        exact h2.2

theorem find?_of_mem_dedupByNumber :
    ∀ (l : List VocabItem) (seen : List Int) (e : VocabItem),
      e ∈ dedupByNumber l seen →
      l.find? (fun y => y.number == e.number) = some e := by
  intro l
  induction l with
  | nil => intro seen e he; simp [dedupByNumber] at he
  | cons x xs ih =>
    intro seen e he
    by_cases hc : seen.contains x.number
    · rw [dedupByNumber, if_pos hc] at he
      have hne : ¬(x.number == e.number) = true := by
        intro hb
        have hxe : x.number = e.number := by simpa using hb
        rw [hxe] at hc
        rw [mem_dedupByNumber_not_seen xs seen e he] at hc
        simp at hc
      exact (List.find?_cons_of_neg xs hne).trans (ih seen e he)
    · rw [dedupByNumber, if_neg hc] at he
      rcases List.mem_cons.mp he with rfl | he2
      · exact List.find?_cons_of_pos xs (by simp)
      · have h2 := mem_dedupByNumber_not_seen xs (x.number :: seen) e he2
        simp only [List.contains_cons, Bool.or_eq_false_iff] at h2
        have hne : ¬(x.number == e.number) = true := by
          intro hb
          have hx : x.number = e.number := by simpa using hb
          have h21 := h2.1
          simp [hx] at h21
        exact (List.find?_cons_of_neg xs hne).trans (ih (x.number :: seen) e he2)

theorem nodup_numbers_dedupByNumber :
    ∀ (l : List VocabItem) (seen : List Int),
      ((dedupByNumber l seen).map VocabItem.number).Nodup := by
  intro l
  induction l with
  | nil => intro seen; simp [dedupByNumber]
  | cons x xs ih =>
    intro seen
    by_cases hc : seen.contains x.number
    · rw [dedupByNumber, if_pos hc]
      exact ih seen
    · rw [dedupByNumber, if_neg hc]
      rw [List.map_cons]
      refine List.Nodup.cons ?_ (ih (x.number :: seen))
      intro hmem
      rcases List.mem_map.mp hmem with ⟨e, he, hne⟩
      have h2 := mem_dedupByNumber_not_seen xs (x.number :: seen) e he
      simp only [List.contains_cons, Bool.or_eq_false_iff] at h2
      have := h2.1
      simp [hne] at this

theorem find?_eq_head?_filter (p : VocabItem → Bool) :
    ∀ l : List VocabItem, l.find? p = (l.filter p).head? := by
  intro l
  induction l with
  | nil => simp
  | cons x xs ih =>
    by_cases hp : p x
    · rw [List.find?_cons_of_pos _ hp, List.filter_cons_of_pos hp]
      simp
    · rw [List.find?_cons_of_neg _ hp, List.filter_cons_of_neg hp]
      exact ih

/-- Stability of the by-number sort: the subsequence of entries with a
given number is unchanged by sorting. -/
theorem sortByNumber_filter_number (l : List VocabItem) (n : Int) :
    (sortByNumber l).filter (fun y => y.number == n) =
      l.filter (fun y => y.number == n) := by
  set p : VocabItem → Bool := fun y => y.number == n with hp
  have hpair : (l.filter p).Pairwise numberLE := by
    apply List.pairwise_of_forall_mem_list
    intro a ha b hb
    have ha2 : a.number = n := by simpa [hp] using (List.mem_filter.mp ha).2
    have hb2 : b.number = n := by simpa [hp] using (List.mem_filter.mp hb).2
    show a.number ≤ b.number
    rw [ha2, hb2]
  have h1 : List.Sublist (l.filter p) (List.insertionSort numberLE l) :=
    List.sublist_insertionSort hpair (List.filter_sublist l)
  have h2 : (l.filter p).filter p = l.filter p := by
    apply List.filter_eq_self.mpr
    intro a ha
    exact (List.mem_filter.mp ha).2
  have h3 : List.Sublist (l.filter p)
      ((List.insertionSort numberLE l).filter p) := by
    have h5 := h1.filter p
    rwa [h2] at h5
  have h4 : List.Perm ((List.insertionSort numberLE l).filter p)
      (l.filter p) :=
    (List.perm_insertionSort numberLE l).filter p
  exact (h3.eq_of_length h4.length_eq.symm).symm

/-- Claim C2: the merge step concatenates the candidate lists in call
order, sorts by number (stably, original position breaking ties) and
keeps only the first pre-sort occurrence of each number; hence the
output is non-decreasing in `number`, numbers are unique, every
surviving entry is the *first* entry with its number in the
concatenation, and merging `[{5, "a"}]` then `[{5, "b"}]` keeps the
entry with word `"a"`. -/
theorem C2_merge_dedup_sort (lists : List (List VocabItem)) :
    (∀ i : Nat, ∀ h : i + 1 < (mergeOcrResults lists).length,
      ((mergeOcrResults lists).get ⟨i, by omega⟩).number ≤
        ((mergeOcrResults lists).get ⟨i + 1, h⟩).number) ∧
    ((mergeOcrResults lists).map VocabItem.number).Nodup ∧
    (∀ e ∈ mergeOcrResults lists,
      lists.flatten.find? (fun y => y.number == e.number) = some e) ∧
    mergeOcrResults [[⟨5, "a", "x", none⟩], [⟨5, "b", "y", none⟩]] =
      [⟨5, "a", "x", none⟩] := by
  refine ⟨?_, ?_, ?_, by decide⟩
  · have hsorted : (mergeOcrResults lists).Pairwise numberLE :=
      List.Pairwise.sublist
        (dedupByNumber_sublist (sortByNumber lists.flatten) [])
        (List.sorted_insertionSort numberLE lists.flatten)
    intro i h
    have := (List.pairwise_iff_getElem.mp hsorted) i (i + 1) (by omega) h
      (by omega)
    simpa [List.get_eq_getElem] using this
  · exact nodup_numbers_dedupByNumber (sortByNumber lists.flatten) []
  · intro e he
    have h1 := find?_of_mem_dedupByNumber (sortByNumber lists.flatten) [] e he
    rw [find?_eq_head?_filter] at h1
    rw [sortByNumber_filter_number] at h1
    rw [← find?_eq_head?_filter] at h1
    exact h1

theorem C2_merge_dedup_sort_witness :
    ([[⟨5, "a", "x", none⟩], [⟨7, "b", "y", none⟩]] :
        List (List VocabItem)).flatten.find?
      (fun y => y.number == (5 : Int)) = some ⟨5, "a", "x", none⟩ := by
  have h := (C2_merge_dedup_sort
    [[⟨5, "a", "x", none⟩], [⟨7, "b", "y", none⟩]]).2.2.1
    ⟨5, "a", "x", none⟩ (by decide)
  exact h

/-! ### C4 — idempotence of the meaning normalisation -/

theorem takeWhile_eq_self_of_all {p : Char → Bool} :
    ∀ {t : List Char}, (∀ c ∈ t, p c = true) → t.takeWhile p = t := by
  intro t
  induction t with
  | nil => intro _; rfl
  | cons c r ih =>
    intro h
    rw [List.takeWhile_cons, if_pos (h c (List.mem_cons_self c r))]
    rw [ih (fun d hd => h d (List.mem_cons_of_mem c hd))]

theorem dropWhile_eq_nil_of_all {p : Char → Bool} :
    ∀ {t : List Char}, (∀ c ∈ t, p c = true) → t.dropWhile p = [] := by
  intro t
  induction t with
  | nil => intro _; rfl
  | cons c r ih =>
    intro h
    rw [List.dropWhile_cons, if_pos (h c (List.mem_cons_self c r))]
    exact ih (fun d hd => h d (List.mem_cons_of_mem c hd))

theorem takeWhile_append_stop {p : Char → Bool} {x : Char}
    (hx : p x = false) :
    ∀ {t r : List Char}, (∀ c ∈ t, p c = true) →
      (t ++ x :: r).takeWhile p = t := by
  intro t
  induction t with
  | nil => intro r _; simp [List.takeWhile_cons, hx]
  | cons c t2 ih =>
    intro r h
    rw [List.cons_append, List.takeWhile_cons,
      if_pos (h c (List.mem_cons_self c t2))]
    rw [ih (fun d hd => h d (List.mem_cons_of_mem c hd))]

theorem dropWhile_append_stop {p : Char → Bool} {x : Char}
    (hx : p x = false) :
    ∀ {t r : List Char}, (∀ c ∈ t, p c = true) →
      (t ++ x :: r).dropWhile p = x :: r := by
  intro t
  induction t with
  | nil => intro r _; simp [List.dropWhile_cons, hx]
  | cons c t2 ih =>
    intro r h
    rw [List.cons_append, List.dropWhile_cons,
      if_pos (h c (List.mem_cons_self c t2))]
    exact ih (fun d hd => h d (List.mem_cons_of_mem c hd))

/-- Every token produced by `tokensBy` is non-empty and consists of
characters satisfying the predicate. -/
theorem tokensBy_mem_props (p : Char → Bool) :
    ∀ (l t : List Char), t ∈ tokensBy p l →
      t ≠ [] ∧ ∀ c ∈ t, p c = true := by
  have main : ∀ (n : Nat) (l : List Char), l.length ≤ n →
      ∀ t ∈ tokensBy p l, t ≠ [] ∧ ∀ c ∈ t, p c = true := by
    intro n
    induction n with
    | zero =>
      intro l hl t ht
      rw [List.length_eq_zero.mp (Nat.le_zero.mp hl)] at ht
      simp [tokensBy] at ht
    | succ n ih =>
      intro l hl t ht
      match l with
      | [] => simp [tokensBy] at ht
      | c :: rest =>
        by_cases hc : p c = true
        · rw [tokensBy_cons_pos p c rest hc] at ht
          rcases List.mem_cons.mp ht with rfl | ht2
          · refine ⟨by simp, ?_⟩
            intro d hd
            rcases List.mem_cons.mp hd with rfl | hd2
            · exact hc
            · exact List.mem_takeWhile_imp hd2
          · have hlen : (rest.dropWhile p).length ≤ n := by
              have := length_dropWhile_le_length p rest
              simp only [List.length_cons] at hl
              omega
            exact ih (rest.dropWhile p) hlen t ht2
        · rw [tokensBy_cons_neg p c rest (by simpa using hc)] at ht
          have hlen : rest.length ≤ n := by
            simp only [List.length_cons] at hl
            omega
          exact ih rest hlen t ht
  intro l t ht
  exact main l.length l (le_refl _) t ht

/-- Splitting the space-join of non-empty space-free tokens recovers
exactly the tokens. -/
theorem tokensBy_joinTok {p : Char → Bool} (hsp : p ' ' = false) :
    ∀ ts : List (List Char),
      (∀ t ∈ ts, t ≠ [] ∧ ∀ c ∈ t, p c = true) →
      tokensBy p (joinTok ts) = ts := by
  intro ts
  induction ts with
  | nil => intro _; rfl
  | cons t ts2 ih =>
    intro h
    obtain ⟨htne, htall⟩ := h t (List.mem_cons_self t ts2)
    obtain ⟨c, r, rfl⟩ : ∃ c r, t = c :: r := by
      cases t with
      | nil => exact absurd rfl htne
      | cons c r => exact ⟨c, r, rfl⟩
    match ts2 with
    | [] =>
      show tokensBy p (c :: r) = [c :: r]
      rw [tokensBy_cons_pos p c r (htall c (List.mem_cons_self c r))]
      rw [takeWhile_eq_self_of_all
        (fun d hd => htall d (List.mem_cons_of_mem c hd))]
      rw [dropWhile_eq_nil_of_all
        (fun d hd => htall d (List.mem_cons_of_mem c hd))]
      rfl
    | t2 :: ts3 =>
      show tokensBy p ((c :: r) ++ ' ' :: joinTok (t2 :: ts3)) = _
      rw [List.cons_append]
      rw [tokensBy_cons_pos p c _ (htall c (List.mem_cons_self c r))]
      rw [takeWhile_append_stop hsp
        (fun d hd => htall d (List.mem_cons_of_mem c hd))]
      rw [dropWhile_append_stop hsp
        (fun d hd => htall d (List.mem_cons_of_mem c hd))]
      rw [tokensBy_cons_neg p ' ' _ hsp]
      rw [ih (fun u hu => h u (List.mem_cons_of_mem _ hu))]

/-- Whitespace collapsing is idempotent. -/
theorem collapseWS_idem (s : List Char) :
    collapseWS (collapseWS s) = collapseWS s := by
  unfold collapseWS
  rw [tokensBy_joinTok (by rfl) (tokensBy (fun c => !isPySpace c) s)
    (fun t ht => tokensBy_mem_props (fun c => !isPySpace c) s t ht)]

theorem stripLeadingTag_eq_self {s : List Char}
    (h : hasLeadingTag s = false) : stripLeadingTag s = s := by
  unfold stripLeadingTag
  split
  · rename_i c rest
    simp only [hasLeadingTag] at h
    rw [if_neg (by simp [h])]
  · rfl

theorem replInteriorTagF_eq_self :
    ∀ (fuel : Nat) (s : List Char), s.length ≤ fuel →
      hasInteriorTag s = false → replInteriorTagF fuel s = s := by
  intro fuel
  induction fuel with
  | zero => intro s _ _; rfl
  | succ n ih =>
    intro s hl h
    match s with
    | [] => rfl
    | c :: rest =>
      simp only [hasInteriorTag, Bool.or_eq_false_iff, Bool.and_eq_false_iff]
        at h
      obtain ⟨h1, h2⟩ := h
      have hrest : rest.length ≤ n := by
        simp only [List.length_cons] at hl
        omega
      rw [show replInteriorTagF (n + 1) (c :: rest) =
          (if isPySpace c then
            match rest.dropWhile isPySpace with
            | t :: '.' :: r2 =>
              if isTagLetter t then
                ',' :: ' ' :: replInteriorTagF n (r2.dropWhile isPySpace)
              else c :: replInteriorTagF n rest
            | _ => c :: replInteriorTagF n rest
          else c :: replInteriorTagF n rest) from rfl]
      by_cases hc : isPySpace c = true
      · rw [if_pos hc]
        rcases h1 with h1 | h1
        · rw [h1] at hc
          simp at hc
        · split
          · rename_i t r2 heq
            rw [heq] at h1
            simp only at h1
            rw [if_neg (by simp [h1])]
            rw [ih rest hrest h2]
          · rw [ih rest hrest h2]
      · rw [if_neg hc]
        rw [ih rest hrest h2]

theorem replInteriorTag_eq_self {s : List Char}
    (h : hasInteriorTag s = false) : replInteriorTag s = s :=
  replInteriorTagF_eq_self s.length s (le_refl _) h

/-- Counterexample to claim C4: the normalisation is not idempotent in
general — on `"a. a."` the first pass strips only the leading tag
(leaving `"a."`), and a second pass strips the remaining tag, giving a
different (empty) result. -/
theorem C4_counterexample :
    normOcrMeaning (normOcrMeaning ("a. a.").data) ≠
      normOcrMeaning ("a. a.").data := by
  decide

/-- Claim C4 as amended: the meaning normalisation is idempotent on
every input whose normalised form contains no part-of-speech marker
occurrence (neither a leading `[avn].` prefix nor an interior
whitespace-preceded one); it is not idempotent unconditionally. -/
theorem C4_normalize_idempotent (s : List Char)
    (h1 : hasLeadingTag (normOcrMeaning s) = false)
    (h2 : hasInteriorTag (normOcrMeaning s) = false) :
    normOcrMeaning (normOcrMeaning s) = normOcrMeaning s := by
  have key : normOcrMeaning (normOcrMeaning s) =
      collapseWS (normOcrMeaning s) := by
    rw [show normOcrMeaning (normOcrMeaning s) =
        collapseWS (replInteriorTag (stripLeadingTag (normOcrMeaning s)))
      from rfl]
    rw [stripLeadingTag_eq_self h1, replInteriorTag_eq_self h2]
  rw [key]
  show collapseWS (collapseWS (replInteriorTag (stripLeadingTag s))) = _
  exact collapseWS_idem _

theorem C4_normalize_idempotent_witness :
    normOcrMeaning (normOcrMeaning ("v. 사과 n. 배").data) =
      normOcrMeaning ("v. 사과 n. 배").data :=
  C4_normalize_idempotent ("v. 사과 n. 배").data (by decide) (by decide)

/-! ### C5 — interior part-of-speech markers -/

theorem isTagLetter_not_space {t : Char} (h : isTagLetter t = true) :
    isPySpace t = false := by
  rcases Bool.or_eq_true_iff.mp h with h2 | h2
  · rcases Bool.or_eq_true_iff.mp h2 with h3 | h3
    · rw [show t = 'a' by simpa using h3]
      rfl
    · rw [show t = 'v' by simpa using h3]
      rfl
  · rw [show t = 'n' by simpa using h2]
    rfl

theorem dropWhile_nospace {l : List Char}
    (h : ∀ c ∈ l, isPySpace c = false) : l.dropWhile isPySpace = l := by
  cases l with
  | nil => rfl
  | cons c r =>
    rw [List.dropWhile_cons, if_neg (by simp [h c (List.mem_cons_self c r)])]

theorem replInteriorTagF_cons_nospace (n : Nat) (c : Char)
    (rest : List Char) (hc : isPySpace c = false) :
    replInteriorTagF (n + 1) (c :: rest) = c :: replInteriorTagF n rest := by
  rw [show replInteriorTagF (n + 1) (c :: rest) =
      (if isPySpace c then
        match rest.dropWhile isPySpace with
        | t :: '.' :: r2 =>
          if isTagLetter t then
            ',' :: ' ' :: replInteriorTagF n (r2.dropWhile isPySpace)
          else c :: replInteriorTagF n rest
        | _ => c :: replInteriorTagF n rest
      else c :: replInteriorTagF n rest) from rfl]
  rw [if_neg (by simp [hc])]

theorem replInteriorTagF_nospace :
    ∀ (fuel : Nat) (l : List Char), (∀ c ∈ l, isPySpace c = false) →
      replInteriorTagF fuel l = l := by
  intro fuel
  induction fuel with
  | zero => intro l _; rfl
  | succ n ih =>
    intro l h
    match l with
    | [] => rfl
    | c :: rest =>
      rw [replInteriorTagF_cons_nospace n c rest (h c (List.mem_cons_self c rest))]
      rw [ih rest (fun d hd => h d (List.mem_cons_of_mem c hd))]

theorem replInteriorTagF_front :
    ∀ (m1 : List Char) (fuel : Nat) (r : List Char),
      (∀ c ∈ m1, isPySpace c = false) →
      replInteriorTagF (m1.length + fuel) (m1 ++ r) =
        m1 ++ replInteriorTagF fuel r := by
  intro m1
  induction m1 with
  | nil => intro fuel r _; simp
  | cons c m1x ih =>
    intro fuel r h
    rw [show (c :: m1x).length + fuel = m1x.length + fuel + 1 from by
      simp [List.length_cons]; omega]
    rw [List.cons_append]
    rw [replInteriorTagF_cons_nospace _ c _ (h c (List.mem_cons_self c m1x))]
    rw [ih fuel r (fun d hd => h d (List.mem_cons_of_mem c hd))]
    rw [List.cons_append]

theorem replInteriorTagF_marker_step (n : Nat) (t : Char) (m2 : List Char)
    (ht : isTagLetter t = true)
    (hsp2 : ∀ c ∈ m2, isPySpace c = false) :
    replInteriorTagF (n + 1) (' ' :: t :: '.' :: ' ' :: m2) =
      ',' :: ' ' :: replInteriorTagF n m2 := by
  have htns : isPySpace t = false := isTagLetter_not_space ht
  rw [show replInteriorTagF (n + 1) (' ' :: t :: '.' :: ' ' :: m2) =
      (if isPySpace ' ' then
        match (t :: '.' :: ' ' :: m2).dropWhile isPySpace with
        | x :: '.' :: r2 =>
          if isTagLetter x then
            ',' :: ' ' :: replInteriorTagF n (r2.dropWhile isPySpace)
          else ' ' :: replInteriorTagF n (t :: '.' :: ' ' :: m2)
        | _ => ' ' :: replInteriorTagF n (t :: '.' :: ' ' :: m2)
      else ' ' :: replInteriorTagF n (t :: '.' :: ' ' :: m2)) from rfl]
  rw [if_pos (show isPySpace ' ' = true from rfl)]
  rw [List.dropWhile_cons, if_neg (by simp [htns])]
  show (if isTagLetter t then
      ',' :: ' ' :: replInteriorTagF n ((' ' :: m2).dropWhile isPySpace)
    else ' ' :: replInteriorTagF n (t :: '.' :: ' ' :: m2)) =
    ',' :: ' ' :: replInteriorTagF n m2
  rw [if_pos ht]
  rw [List.dropWhile_cons, if_pos (show isPySpace ' ' = true from rfl)]
  rw [dropWhile_nospace hsp2]

/-- Counterexample to claim C5: the whole-block table parser does *not*
replace interior part-of-speech markers by comma-space — it deletes
them outright (`re.sub` with an empty replacement, line 289), so the
two senses of `"a. 비어있는 v. 비우다"` are joined without any comma in
the emitted meaning. -/
theorem C5_counterexample :
    parse_vocab_table "51 □ empty a. 비어있는 v. 비우다" =
      [⟨51, "empty", "비어있는 비우다", some "a, v"⟩] ∧
    ¬ ',' ∈ ("비어있는 비우다").data := by
  constructor
  · decide
  · decide

/-- Claim C5 as amended: in the *two-line OCR parser's* meaning
normalisation an interior part-of-speech marker (preceded by
whitespace) is replaced by a comma-space, so multiple senses on one
line are preserved as a comma-separated list; the whole-block table
parser instead deletes markers outright, and the simple-cascade
patterns strip only the leading marker. -/
theorem C5_ocr_interior_comma :
    (∀ (m1 m2 : List Char) (t : Char),
      isTagLetter t = true → m1 ≠ [] → m2 ≠ [] →
      (∀ c ∈ m1, isPySpace c = false) → ¬ '.' ∈ m1 →
      (∀ c ∈ m2, isPySpace c = false) →
      normOcrMeaning (m1 ++ ' ' :: t :: '.' :: ' ' :: m2) =
        m1 ++ ',' :: ' ' :: m2) ∧
    parse_ocr_vocab_text "51 empty\na. 비어있는 v. 비우다" =
      [⟨51, "empty", "비어있는, 비우다", none⟩] := by
  constructor
  · intro m1 m2 t ht hm1 hm2 hsp1 hdot hsp2
    obtain ⟨c, m1x, rfl⟩ : ∃ c r, m1 = c :: r := by
      cases m1 with
      | nil => exact absurd rfl hm1
      | cons c r => exact ⟨c, r, rfl⟩
    have hlead : hasLeadingTag ((c :: m1x) ++ ' ' :: t :: '.' :: ' ' :: m2)
        = false := by
      cases m1x with
      | nil => rfl
      | cons d m1y =>
        have hd : ¬ d = '.' := by
          intro hdd
          subst hdd
          exact hdot (by simp)
        unfold hasLeadingTag
        split
        · rename_i x rest heq
          simp only [List.cons_append] at heq
          rw [List.cons_eq_cons] at heq
          rw [List.cons_eq_cons] at heq
          exact absurd heq.2.1 hd
        · rfl
    rw [show normOcrMeaning ((c :: m1x) ++ ' ' :: t :: '.' :: ' ' :: m2) =
        collapseWS (replInteriorTag (stripLeadingTag
          ((c :: m1x) ++ ' ' :: t :: '.' :: ' ' :: m2))) from rfl]
    rw [stripLeadingTag_eq_self hlead]
    have hrepl : replInteriorTag ((c :: m1x) ++ ' ' :: t :: '.' :: ' ' :: m2)
        = (c :: m1x) ++ ',' :: ' ' :: m2 := by
      rw [show replInteriorTag ((c :: m1x) ++ ' ' :: t :: '.' :: ' ' :: m2) =
          replInteriorTagF ((c :: m1x) ++ ' ' :: t :: '.' :: ' ' :: m2).length
            ((c :: m1x) ++ ' ' :: t :: '.' :: ' ' :: m2) from rfl]
      rw [show ((c :: m1x) ++ ' ' :: t :: '.' :: ' ' :: m2).length =
          (c :: m1x).length + (m2.length + 4) from by
        simp [List.length_append, List.length_cons]; omega]
      rw [replInteriorTagF_front (c :: m1x) (m2.length + 4) _ hsp1]
      rw [show m2.length + 4 = (m2.length + 3) + 1 from by omega]
      rw [replInteriorTagF_marker_step (m2.length + 3) t m2 ht hsp2]
      rw [replInteriorTagF_nospace (m2.length + 3) m2 hsp2]
    rw [hrepl]
    have hq : ∀ u ∈ [(c :: m1x) ++ [','], m2],
        u ≠ [] ∧ ∀ d ∈ u, (!isPySpace d) = true := by
      intro u hu
      rcases List.mem_cons.mp hu with rfl | hu2
      · refine ⟨by simp, ?_⟩
        intro d hd
        rcases List.mem_append.mp hd with hd2 | hd2
        · simp [hsp1 d hd2]
        · rw [show d = ',' by simpa using hd2]
          rfl
      · rw [show u = m2 by simpa using hu2]
        refine ⟨hm2, ?_⟩
        intro d hd
        simp [hsp2 d hd]
    have hassoc : (c :: m1x) ++ ',' :: ' ' :: m2 =
        ((c :: m1x) ++ [',']) ++ ' ' :: m2 := by
      simp
    rw [hassoc]
    show joinTok (tokensBy (fun d => !isPySpace d)
      (joinTok [(c :: m1x) ++ [','], m2])) = _
    rw [tokensBy_joinTok (by rfl) [(c :: m1x) ++ [','], m2] hq]
    rfl
  · decide

theorem C5_ocr_interior_comma_witness :
    normOcrMeaning (("가").data ++ ' ' :: 'v' :: '.' :: ' ' :: ("나").data) =
      ("가").data ++ ',' :: ' ' :: ("나").data :=
  C5_ocr_interior_comma.1 ("가").data ("나").data 'v'
    (by decide) (by decide) (by decide) (by decide) (by decide) (by decide)

/-! ### C8 — the stateful fallback scanner and bare word lines -/

/-- A line that matches the full-record pattern of the scanner *with* a
native-script meaning: exactly the lines on which the scanner's first
branch fires (and silently discards any pending word). -/
def isFullRecordLine (l : List Char) : Bool :=
  match scanFullMatch l with
  | some (_, _, g3) => containsHangul (stripLeadingTag (stripWS g3))
  | none => false

/-- The word `w` is either already in the accumulated list or is the
pending word of the scanner state. -/
def wordTracked (w : List Char) (st : ScanState) : Prop :=
  (∃ e ∈ st.acc, e.word = String.mk w) ∨ st.curWord = some w

theorem saveItem_mem_mono {acc : List VocabItem} {e : VocabItem}
    (n : Option Int) (word m : List Char) (he : e ∈ acc) :
    e ∈ saveItem acc n word m := by
  unfold saveItem
  exact List.mem_append_left _ he

theorem saveItem_has_word (acc : List VocabItem) (n : Option Int)
    (word m : List Char) :
    ∃ e ∈ saveItem acc n word m, e.word = String.mk word := by
  unfold saveItem
  exact ⟨_, List.mem_append_right acc (List.mem_singleton_self _), rfl⟩

theorem isAsciiLetter_isDigit_false {c : Char}
    (h : isAsciiLetter c = true) : c.isDigit = false := by
  rw [Bool.eq_false_iff]
  intro hd
  simp only [Char.isDigit, Bool.and_eq_true, decide_eq_true_eq] at hd
  rcases Bool.or_eq_true_iff.mp h with h2 | h2 <;>
    obtain ⟨ha, hb⟩ := Bool.and_eq_true_iff.mp h2
  · have ha2 : 'a' ≤ c := of_decide_eq_true ha
    have : ('a' : Char) ≤ '9' := le_trans ha2 hd.2
    exact absurd this (by decide)
  · have ha2 : 'A' ≤ c := of_decide_eq_true ha
    have : ('A' : Char) ≤ '9' := le_trans ha2 hd.2
    exact absurd this (by decide)

theorem isWordTail_isHangul_false {c : Char}
    (h : isWordTail c = true) : isHangul c = false := by
  rw [Bool.eq_false_iff]
  intro hh
  simp only [isHangul, Bool.and_eq_true, decide_eq_true_eq] at hh
  rcases Bool.or_eq_true_iff.mp h with h2 | h2
  · rcases Bool.or_eq_true_iff.mp h2 with h3 | h3 <;>
      obtain ⟨ha, hb⟩ := Bool.and_eq_true_iff.mp h3
    · have hb2 : c ≤ 'z' := of_decide_eq_true hb
      have : ('가' : Char) ≤ 'z' := le_trans hh.1 hb2
      exact absurd this (by decide)
    · have hb2 : c ≤ 'Z' := of_decide_eq_true hb
      have : ('가' : Char) ≤ 'Z' := le_trans hh.1 hb2
      exact absurd this (by decide)
  · have hc : c = '-' := by simpa using h2
    rw [hc] at hh
    exact absurd hh.1 (by decide)

theorem bareWord_shape {w : List Char} (hbare : isBareWordLine w = true) :
    ∃ c rest, w = c :: rest ∧ isAsciiLetter c = true ∧
      rest.all isWordTail = true := by
  match w with
  | [] => simp [isBareWordLine] at hbare
  | c :: rest =>
    simp only [isBareWordLine, Bool.and_eq_true] at hbare
    exact ⟨c, rest, rfl, hbare.1, hbare.2⟩

theorem bareWord_no_hangul {w : List Char}
    (hbare : isBareWordLine w = true) : containsHangul w = false := by
  obtain ⟨c, rest, rfl, hc, hrest⟩ := bareWord_shape hbare
  simp only [containsHangul, List.any_cons, Bool.or_eq_false_iff]
  constructor
  · exact isWordTail_isHangul_false (by simp [isWordTail, hc])
  · rw [List.any_eq_false]
    intro d hd
    simp only [Bool.not_eq_true]
    exact isWordTail_isHangul_false (List.all_eq_true.mp hrest d hd)

theorem bareWord_scanFullMatch {w : List Char}
    (hbare : isBareWordLine w = true) : scanFullMatch w = none := by
  obtain ⟨c, rest, rfl, hc, _⟩ := bareWord_shape hbare
  have hcd : c.isDigit = false := isAsciiLetter_isDigit_false hc
  simp [scanFullMatch, matchDigits, List.takeWhile_cons, hcd]

theorem bareWord_scanNumWordMatch {w : List Char}
    (hbare : isBareWordLine w = true) : scanNumWordMatch w = none := by
  obtain ⟨c, rest, rfl, hc, _⟩ := bareWord_shape hbare
  have hcd : c.isDigit = false := isAsciiLetter_isDigit_false hc
  simp [scanNumWordMatch, matchDigits, List.takeWhile_cons, hcd]

/-- When the line is not a complete record with a native-script
meaning, the scanner step reduces to the number+word branch when that
pattern matches. -/
theorem scanStep_not_full_numWord (st : ScanState) (line : List Char)
    (g : List Char × List Char)
    (hline : isFullRecordLine line = false)
    (hnw : scanNumWordMatch line = some g) :
    scanStep st line = scanStepNumWord st g := by
  cases hm : scanFullMatch line with
  | none => simp [scanStep, hm, hnw]
  | some gg =>
    obtain ⟨ds, w2, g3⟩ := gg
    have hhang : containsHangul (stripLeadingTag (stripWS g3)) = false := by
      simpa [isFullRecordLine, hm] using hline
    simp [scanStep, hm, hhang, hnw]

/-- When neither the full-record branch (with meaning) nor the
number+word branch fires, the scanner step reduces to the remaining
branches. -/
theorem scanStep_not_full_other (st : ScanState) (line : List Char)
    (hline : isFullRecordLine line = false)
    (hnw : scanNumWordMatch line = none) :
    scanStep st line = scanStepOther st line := by
  cases hm : scanFullMatch line with
  | none => simp [scanStep, hm, hnw]
  | some gg =>
    obtain ⟨ds, w2, g3⟩ := gg
    have hhang : containsHangul (stripLeadingTag (stripWS g3)) = false := by
      simpa [isFullRecordLine, hm] using hline
    simp [scanStep, hm, hhang, hnw]

/-- A bare word line is not a full-record line. -/
theorem bareWord_not_full {w : List Char}
    (hbare : isBareWordLine w = true) : isFullRecordLine w = false := by
  simp [isFullRecordLine, bareWord_scanFullMatch hbare]

/-- After processing a bare word line the scanner's pending word is
that line, whatever the previous state was. -/
theorem scanStep_bare (st : ScanState) (w : List Char)
    (hbare : isBareWordLine w = true) :
    (scanStep st w).curWord = some w := by
  have hh := bareWord_no_hangul hbare
  rw [scanStep_not_full_other st w (bareWord_not_full hbare)
    (bareWord_scanNumWordMatch hbare)]
  obtain ⟨acc, curNum, curWord⟩ := st
  cases curWord with
  | some pw =>
    simp only [scanStepOther]
    rw [if_neg (by simp [hh]), if_pos hbare]
  | none =>
    simp only [scanStepOther]
    rw [if_pos hbare]

/-- One scanner step preserves tracking of a word, provided the line is
not a complete record with native-script meaning (the one branch that
discards the pending word without flushing it). -/
theorem scanStep_preserves (w : List Char) (st : ScanState)
    (line : List Char) (hline : isFullRecordLine line = false)
    (hw : wordTracked w st) : wordTracked w (scanStep st line) := by
  cases hnw : scanNumWordMatch line with
  | some g =>
    rw [scanStep_not_full_numWord st line g hline hnw]
    obtain ⟨acc, curNum, curWord⟩ := st
    cases curWord with
    | some pw =>
      simp only [scanStepNumWord]
      rcases hw with ⟨e, he, hew⟩ | hcw
      · exact Or.inl ⟨e, saveItem_mem_mono _ _ _ he, hew⟩
      · have hpw : pw = w := Option.some.inj hcw
        subst hpw
        exact Or.inl (saveItem_has_word acc curNum pw [])
    | none =>
      simp only [scanStepNumWord]
      rcases hw with ⟨e, he, hew⟩ | hcw
      · exact Or.inl ⟨e, he, hew⟩
      · exact absurd hcw (by simp)
  | none =>
    rw [scanStep_not_full_other st line hline hnw]
    obtain ⟨acc, curNum, curWord⟩ := st
    cases curWord with
    | some pw =>
      simp only [scanStepOther]
      by_cases hh : containsHangul line = true
      · rw [if_pos hh]
        rcases hw with ⟨e, he, hew⟩ | hcw
        · exact Or.inl ⟨e, saveItem_mem_mono _ _ _ he, hew⟩
        · have hpw : pw = w := Option.some.inj hcw
          subst hpw
          exact Or.inl (saveItem_has_word acc curNum pw _)
      · rw [if_neg hh]
        by_cases hb : isBareWordLine line = true
        · rw [if_pos hb]
          rcases hw with ⟨e, he, hew⟩ | hcw
          · exact Or.inl ⟨e, saveItem_mem_mono _ _ _ he, hew⟩
          · have hpw : pw = w := Option.some.inj hcw
            subst hpw
            exact Or.inl (saveItem_has_word acc curNum pw [])
        · rw [if_neg hb]
          exact hw
    | none =>
      simp only [scanStepOther]
      by_cases hb : isBareWordLine line = true
      · rw [if_pos hb]
        rcases hw with ⟨e, he, hew⟩ | hcw
        · exact Or.inl ⟨e, he, hew⟩
        · exact absurd hcw (by simp)
      · rw [if_neg hb]
        exact hw

theorem foldl_scanStep_tracked (w : List Char) :
    ∀ (post : List (List Char)) (st : ScanState),
      (∀ l ∈ post, isFullRecordLine l = false) →
      wordTracked w st → wordTracked w (post.foldl scanStep st) := by
  intro post
  induction post with
  | nil => intro st _ hw; exact hw
  | cons l post2 ih =>
    intro st hpost hw
    rw [List.foldl_cons]
    exact ih (scanStep st l)
      (fun u hu => hpost u (List.mem_cons_of_mem l hu))
      (scanStep_preserves w st l (hpost l (List.mem_cons_self l post2)) hw)

theorem wordTracked_finish (w : List Char) (st : ScanState)
    (h : wordTracked w st) : ∃ e ∈ scanFinish st, e.word = String.mk w := by
  obtain ⟨acc, curNum, curWord⟩ := st
  cases curWord with
  | some pw =>
    rcases h with ⟨e, he, hew⟩ | hcw
    · exact ⟨e, saveItem_mem_mono _ _ _ he, hew⟩
    · have hpw : pw = w := Option.some.inj hcw
      subst hpw
      exact saveItem_has_word acc curNum pw []
  | none =>
    rcases h with ⟨e, he, hew⟩ | hcw
    · exact ⟨e, he, hew⟩
    · exact absurd hcw (by simp)

/-- Counterexample to claim C8: the line `"apple"` is a bare alphabetic
token, but after the full-record line `"1 banana 바나나"` the scanner's
output contains no entry for it — a pending word is silently discarded
when a complete number-word-meaning line follows. -/
theorem C8_counterexample :
    isBareWordLine (("apple").data) = true ∧
    ("apple").data ∈ prepScanLines "apple\n1 banana 바나나" ∧
    ∀ e ∈ scannerParse "apple\n1 banana 바나나", ¬ e.word = "apple" := by
  refine ⟨by decide, by decide, by decide⟩

/-- Claim C8 as amended: a bare alphabetic-token line observed by the
stateful fallback scanner appears in the output — with a real meaning
or the placeholder sentinel — provided no *later* line of the input
matches the complete number-word-meaning pattern with a native-script
meaning; such a full-record line makes the scanner silently discard a
still-pending word. -/
theorem C8_bare_word_kept (text : String) (pre post : List (List Char))
    (w : List Char)
    (hsplit : prepScanLines text = pre ++ w :: post)
    (hbare : isBareWordLine w = true)
    (hpost : ∀ l ∈ post, isFullRecordLine l = false) :
    ∃ e ∈ scannerParse text, e.word = String.mk w := by
  unfold scannerParse runScanner
  rw [hsplit, List.foldl_append, List.foldl_cons]
  exact wordTracked_finish w _
    (foldl_scanStep_tracked w post _ hpost
      (Or.inr (scanStep_bare _ w hbare)))

theorem C8_bare_word_kept_witness :
    ∃ e ∈ scannerParse "apple", e.word = String.mk (("apple").data) :=
  C8_bare_word_kept "apple" [] [] ("apple").data
    (by decide) (by decide) (by decide)
